import Mathlib

/-!
Verification of the PageRank implementation in `pagerank.py`.

The corpus dictionary is embedded as a `Corpus` structure: a finite key set
together with a link-set function.  Probability values are embedded as exact
rationals (`ℚ`); the floating-point program computes the same expressions up
to rounding, so exact identities proved here imply the spec's
floating-point tolerances.  Dictionaries mapping each corpus key to a value
are embedded as total functions read only on `keys`.
-/

namespace PageRank

variable {α : Type*}

/-- A corpus: each page (a key) maps to the set of pages it links to.
Mirrors the Python dict built by `crawl`. -/
structure Corpus (α : Type*) where
  keys : Finset α
  links : α → Finset α

/-- Embedding of `transition_model(corpus, page, damping_factor)`
(pagerank.py lines 52-84).  If the page has no outgoing links it is treated
as linking to every page of the corpus; each linked page receives
`damping_factor / num_linked_pages` on top of the baseline
`(1 - damping_factor) / len(corpus)`. -/
def transition_model [DecidableEq α] (c : Corpus α) (page : α) (damping_factor : ℚ) :
    α → ℚ :=
  let linked_pages := if (c.links page).card = 0 then c.keys else c.links page
  let link_prob := damping_factor / (linked_pages.card : ℚ)
  let random_prob := (1 - damping_factor) / (c.keys.card : ℚ)
  fun p => if p ∈ linked_pages then link_prob + random_prob else random_prob

/-- Summing `if p ∈ t then a + b else b` over a superset `s` of `t`
counts `a` once per element of `t` and `b` once per element of `s`. -/
lemma sum_ite_mem_add [DecidableEq α] (s t : Finset α) (h : t ⊆ s) (a b : ℚ) :
    ∑ p ∈ s, (if p ∈ t then a + b else b) = (t.card : ℚ) * a + (s.card : ℚ) * b := by
  have h1 : ∀ p ∈ s, (if p ∈ t then a + b else b) = (if p ∈ t then a else 0) + b := by
    intro p _
    by_cases hp : p ∈ t <;> simp [hp]
  rw [Finset.sum_congr rfl h1, Finset.sum_add_distrib, Finset.sum_ite_mem,
    Finset.inter_eq_right.mpr h, Finset.sum_const, Finset.sum_const,
    nsmul_eq_mul, nsmul_eq_mul]

/-- C1: for a corpus whose link sets stay inside the key set, a page of the
corpus and a damping factor in (0,1), the distribution returned by
`transition_model` sums to exactly 1 over the corpus's pages. -/
theorem transition_model_sums_to_one [DecidableEq α] (c : Corpus α) (page : α)
    (d : ℚ) (hsub : ∀ k ∈ c.keys, c.links k ⊆ c.keys) (hpage : page ∈ c.keys)
    (hd0 : 0 < d) (hd1 : d < 1) :
    ∑ p ∈ c.keys, transition_model c page d p = 1 := by
  have hNnat : 0 < c.keys.card := Finset.card_pos.mpr ⟨page, hpage⟩
  have hN : ((c.keys.card : ℚ)) ≠ 0 := Nat.cast_ne_zero.mpr hNnat.ne'
  simp only [transition_model]
  by_cases hsink : (c.links page).card = 0
  · rw [if_pos hsink, sum_ite_mem_add c.keys c.keys le_rfl]
    field_simp
  · rw [if_neg hsink, sum_ite_mem_add c.keys (c.links page) (hsub page hpage)]
    have hL : ((c.links page).card : ℚ) ≠ 0 := Nat.cast_ne_zero.mpr hsink
    field_simp

/-- C4: for a page of the corpus with an empty link set (a sink),
`transition_model` is the uniform distribution `1 / |corpus|` on every
corpus page. -/
theorem transition_model_sink_uniform [DecidableEq α] (c : Corpus α) (page : α)
    (d : ℚ) (hne : c.keys.Nonempty) (hpage : page ∈ c.keys)
    (hsink : c.links page = ∅) (hd0 : 0 ≤ d) (hd1 : d ≤ 1) :
    ∀ p ∈ c.keys, transition_model c page d p = 1 / (c.keys.card : ℚ) := by
  intro p hp
  have hcard : (c.links page).card = 0 := by simp [hsink]
  simp only [transition_model]
  rw [if_pos hcard, if_pos (by simpa using hp), div_add_div_same]
  norm_num

/-- A two-page corpus with a sink: page 0 has no outgoing links,
page 1 links to page 0. -/
def cSink : Corpus ℕ := ⟨{0, 1}, fun i => if i = 1 then {0} else ∅⟩

/-- A two-page corpus without sinks: 0 links to 1 and 1 links to 0. -/
def cTwo : Corpus ℕ := ⟨{0, 1}, fun i => if i = 0 then {1} else {0}⟩

/-- Witness for C1 at a concrete corpus, page and damping factor. -/
theorem transition_model_sums_to_one_witness :
    ∑ p ∈ cTwo.keys, transition_model cTwo 0 (1/2) p = 1 :=
  transition_model_sums_to_one cTwo 0 (1/2) (by decide) (by decide)
    (by norm_num) (by norm_num)

/-- Witness for C4 at a concrete sink page. -/
theorem transition_model_sink_uniform_witness :
    transition_model cSink 0 (17/20) 1 = 1 / ((cSink.keys.card : ℚ)) :=
  transition_model_sink_uniform cSink 0 (17/20) ⟨0, by decide⟩ (by decide)
    (by decide) (by norm_num) (by norm_num) 1 (by decide)

/-- The index set of the update sum in `iterate_pagerank` (line 143):
`for i in corpus if page in corpus[i]` — the corpus keys whose link set
contains `page`. -/
def updateSources [DecidableEq α] (c : Corpus α) (page : α) : Finset α :=
  c.keys.filter (fun i => page ∈ c.links i)

/-- One simultaneous update round of `iterate_pagerank` (line 143):
`pagerank[page] = (1 - damping_factor)/len(corpus)
  + damping_factor * sum(old_pagerank[i]/len(corpus[i])
                         for i in corpus if page in corpus[i])`.
The round reads only `old_pagerank`, so it is a pure function of the
previous table. -/
def iterStep [DecidableEq α] (c : Corpus α) (damping_factor : ℚ) (old : α → ℚ) :
    α → ℚ :=
  fun page => (1 - damping_factor) / (c.keys.card : ℚ) +
    damping_factor * ∑ i ∈ updateSources c page, old i / ((c.links i).card : ℚ)

/-- The `while True` loop of `iterate_pagerank` (lines 137-147), indexed by a
fuel bound: run a round, stop (returning the new table) once every page
changed by less than 0.001 in absolute value, otherwise continue.  `none`
means the loop has not terminated within `fuel` rounds. -/
def iterLoop [DecidableEq α] (c : Corpus α) (damping_factor : ℚ) :
    ℕ → (α → ℚ) → Option (α → ℚ)
  | 0, _ => none
  | fuel + 1, old =>
    let new := iterStep c damping_factor old
    if ∀ page ∈ c.keys, |old page - new page| < 1 / 1000 then some new
    else iterLoop c damping_factor fuel new

/-- Embedding of `iterate_pagerank(corpus, damping_factor)` (lines 128-149):
every page starts at `1 / len(corpus)`, then rounds run to convergence.
The fuel parameter makes the possibly diverging loop total. -/
def iterate_pagerank [DecidableEq α] (c : Corpus α) (damping_factor : ℚ)
    (fuel : ℕ) : Option (α → ℚ) :=
  iterLoop c damping_factor fuel (fun _ => 1 / (c.keys.card : ℚ))

/-- The update rule as the spec states it (refinement comparison): page `p`
receives `(1-d)/|corpus| + d * Σ_{i links to p} old(i)/out_degree(i)`, where
a sink page `i` is treated as linking to every page and contributes
`old(i)/|corpus|` to every page's rank. -/
def specUpdateRule [DecidableEq α] (c : Corpus α) (d : ℚ) (old : α → ℚ) :
    α → ℚ :=
  fun p => (1 - d) / (c.keys.card : ℚ) +
    d * ∑ i ∈ c.keys,
      (if p ∈ c.links i then old i / ((c.links i).card : ℚ)
       else if c.links i = ∅ then old i / (c.keys.card : ℚ) else 0)

/-- C2 (code bug witness): on the sink corpus `cSink` with damping 0.85 and
the initial table (1/2, 1/2), the code's update gives page 1 the rank 3/40,
while the spec's update rule gives 23/80: line 143 drops the contribution of
the sink page 0 entirely instead of spreading it uniformly. -/
theorem iterStep_drops_sink_contribution :
    iterStep cSink (17/20) (fun _ => (1:ℚ)/2) 1 = 3/40 ∧
    specUpdateRule cSink (17/20) (fun _ => (1:ℚ)/2) 1 = 23/80 := by
  have hcard : cSink.keys.card = 2 := by decide
  have hUS1 : updateSources cSink 1 = ∅ := by decide
  have hc0 : cSink.links 0 = ∅ := by decide
  have hc1 : cSink.links 1 = {0} := by decide
  constructor
  · simp only [iterStep, hUS1, hcard, Finset.sum_empty]
    norm_num
  · simp only [specUpdateRule, hcard]
    rw [show cSink.keys = {0, 1} from rfl, Finset.sum_insert (by decide),
      Finset.sum_singleton]
    simp [hc0, hc1]
    norm_num

/-- C3 (code bug witness): on the sink corpus `cSink` with damping 0.85, the
rank table after the first update round sums to 23/40, not 1: the update
rule of line 143 leaks the mass of sink pages. -/
theorem iterStep_sum_not_one :
    ∑ p ∈ cSink.keys, iterStep cSink (17/20) (fun _ => (1:ℚ)/2) p = 23/40 ∧
    ((23:ℚ)/40) ≠ 1 := by
  have hcard : cSink.keys.card = 2 := by decide
  have hUS0 : updateSources cSink 0 = {1} := by decide
  have hUS1 : updateSources cSink 1 = ∅ := by decide
  have hc1 : cSink.links 1 = {0} := by decide
  constructor
  · rw [show cSink.keys = {0, 1} from rfl, Finset.sum_insert (by decide),
      Finset.sum_singleton]
    simp only [iterStep, hUS0, hUS1, hcard, Finset.sum_empty,
      Finset.sum_singleton, hc1, Finset.card_singleton]
    norm_num
  · norm_num

/-- C10: every division `old_pagerank[i] / len(corpus[i])` of the update sum
(line 143) has a divisor of at least 1: the guard `page in corpus[i]`
selecting the index set forces `corpus[i]` to be non-empty. -/
theorem updateSources_card_pos [DecidableEq α] (c : Corpus α) (page i : α)
    (hi : i ∈ updateSources c page) : 1 ≤ (c.links i).card := by
  rw [updateSources, Finset.mem_filter] at hi
  exact Finset.card_pos.mpr ⟨page, hi.2⟩

/-- Witness for C10: in `cSink`, page 1 is an update source of page 0 and
indeed has out-degree at least 1. -/
theorem updateSources_card_pos_witness : 1 ≤ (cSink.links 1).card :=
  updateSources_card_pos cSink 0 1 (by decide)

/-- C6: `iterate_pagerank` is deterministic — equal corpora and damping
factors (and fuel) give equal results.  The embedding is a pure function
because the source loop reads no randomness. -/
theorem iterate_pagerank_deterministic [DecidableEq α] (c c' : Corpus α)
    (d d' : ℚ) (fuel : ℕ) (hc : c = c') (hd : d = d') :
    iterate_pagerank c d fuel = iterate_pagerank c' d' fuel := by
  rw [hc, hd]

/-- Witness for C6 at a concrete corpus and damping factor. -/
theorem iterate_pagerank_deterministic_witness :
    iterate_pagerank cSink (17/20) 5 = iterate_pagerank cSink (17/20) 5 :=
  iterate_pagerank_deterministic cSink cSink (17/20) (17/20) 5 rfl rfl

/-- Embedding of the counting stage of `sample_pagerank` (lines 119-126).
The pgmpy random walk is abstracted by `trace`, the list of sampled pages
(length `n`).  `value_counts(normalize=True)` holds `count/n` for exactly
the pages that occur in the walk, so the lookup `counts[page]` raises
`KeyError` — modelled as `none` — whenever some corpus page was never
visited. -/
def sample_pagerank [DecidableEq α] (c : Corpus α) (trace : List α) :
    Option (α → ℚ) :=
  if ∀ p ∈ c.keys, p ∈ trace then
    some (fun p => (trace.count p : ℚ) / (trace.length : ℚ))
  else none

/-- C5 (code bug witness): on the two-page corpus `cTwo`, a one-step walk
visits a single page, so whichever page the walk starts at, the lookup
`counts[page]` for the other page raises `KeyError` (`none`), instead of
returning the rank table 1.0 / 0.0 the spec promises. -/
theorem sample_pagerank_n1_keyerror :
    sample_pagerank cTwo [0] = none ∧ sample_pagerank cTwo [1] = none := by
  have h0 : ¬ (∀ p ∈ cTwo.keys, p ∈ ([0] : List ℕ)) := by decide
  have h1 : ¬ (∀ p ∈ cTwo.keys, p ∈ ([1] : List ℕ)) := by decide
  constructor
  · simp only [sample_pagerank]
    rw [if_neg h0]
  · simp only [sample_pagerank]
    rw [if_neg h1]

/-- The eligibility test `filename.endswith(".html")` of line 35, embedded
as a suffix check on the character lists of the strings. -/
def endsWithHtml (filename : String) : Bool :=
  ".html".data.isSuffixOf filename.data

/-- One step of the first loop of `crawl` (lines 34-40): a directory entry is
skipped unless its name has the `.html` suffix; otherwise the dict maps the
filename to its extracted link set minus the filename itself
(`set(links) - {filename}`), overwriting any previous binding. -/
def crawlInsert (d : String → Option (Finset String))
    (e : String × Finset String) : String → Option (Finset String) :=
  if endsWithHtml e.1 then
    fun f => if f = e.1 then some (e.2.erase e.1) else d f
  else d

/-- The dict `pages` after the first loop of `crawl`, built from the
directory listing.  An entry pairs a filename with the set of link targets
extracted from its contents (the regex extraction is abstracted as the
given set, since the claims do not depend on the pattern itself). -/
def pagesDict (listing : List (String × Finset String)) :
    String → Option (Finset String) :=
  listing.foldl crawlInsert (fun _ => none)

/-- Embedding of `crawl(directory)` (lines 25-49): after the first loop, the
second loop keeps only links that are themselves keys of the dict. -/
def crawl (listing : List (String × Finset String)) :
    String → Option (Finset String) :=
  fun f => (pagesDict listing f).map
    (fun s => s.filter (fun link => (pagesDict listing link).isSome))

lemma pagesDict_self_not_mem (listing : List (String × Finset String)) :
    ∀ f s, pagesDict listing f = some s → f ∉ s := by
  rw [pagesDict]
  generalize hd : (fun _ : String => (none : Option (Finset String))) = d
  have hd0 : ∀ f s, d f = some s → f ∉ s := by
    intro f s h
    rw [← hd] at h
    exact absurd h (by simp)
  clear hd
  induction listing generalizing d with
  | nil => exact hd0
  | cons e t ih =>
    rw [List.foldl_cons]
    apply ih
    intro f s h
    rw [crawlInsert] at h
    by_cases he : endsWithHtml e.1 = true
    · rw [if_pos he] at h
      by_cases hf : f = e.1
      · rw [if_pos hf] at h
        simp only [Option.some_inj] at h
        rw [← h, hf]
        exact Finset.not_mem_erase e.1 e.2
      · rw [if_neg hf] at h
        exact hd0 f s h
    · rw [if_neg he] at h
      exact hd0 f s h

/-- C8: the corpus built by `crawl` satisfies the corpus invariants — every
recorded link set is a subset of the key set (every link is itself a key),
and no page's link set contains the page itself. -/
theorem crawl_invariants (listing : List (String × Finset String))
    (f : String) (s : Finset String) (h : crawl listing f = some s) :
    (∀ link ∈ s, (crawl listing link).isSome) ∧ f ∉ s := by
  rw [crawl, Option.map_eq_some'] at h
  obtain ⟨s₀, hs₀, rfl⟩ := h
  constructor
  · intro link hlink
    rw [Finset.mem_filter] at hlink
    rw [crawl, Option.isSome_map']
    exact hlink.2
  · intro hf
    rw [Finset.mem_filter] at hf
    exact pagesDict_self_not_mem listing f s₀ hs₀ hf.1

/-- A concrete directory listing: two eligible pages; the first one links to
itself, to the second page, and to a file outside the corpus. -/
def listing₁ : List (String × Finset String) :=
  [("a.html", {"b.html", "a.html", "x.html"}), ("b.html", {"c.html"})]

/-- Witness for C8 at a concrete listing. -/
theorem crawl_invariants_witness :
    (crawl listing₁ "b.html").isSome ∧
    "a.html" ∉ ({"b.html"} : Finset String) :=
  ⟨(crawl_invariants listing₁ "a.html" {"b.html"} (by decide)).1 "b.html"
      (by decide),
    (crawl_invariants listing₁ "a.html" {"b.html"} (by decide)).2⟩

/-- The usage message passed to `sys.exit` on a wrong argument count
(line 13); `sys.exit` with a string prints it to standard error and
terminates the process with exit code 1. -/
def usage_message : String := "Usage: python pagerank.py corpus"

/-- Embedding of `main()` (lines 11-22): `argv` is the Python `sys.argv`
(program name plus positional arguments) and `listing` stands for the
directory read by `crawl`.  The argument-count guard of lines 12-13 runs
first; the error short-circuits, so no corpus is built.  The computation
downstream of `crawl` (estimating and printing ranks) is reporting glue and
is elided from the result. -/
def main (argv : List String) (listing : List (String × Finset String)) :
    Except String (String → Option (Finset String)) :=
  if argv.length ≠ 2 then Except.error usage_message
  else Except.ok (crawl listing)

/-- C9: when the argument count is wrong (`len(sys.argv) != 2`), `main`
terminates immediately with the usage message and performs no computation:
the result is the error before any corpus is built. -/
theorem main_usage_error (argv : List String)
    (listing : List (String × Finset String)) (h : argv.length ≠ 2) :
    main argv listing = Except.error usage_message := by
  rw [main, if_pos h]

/-- Witness for C9: invoking with no arguments at all errors out. -/
theorem main_usage_error_witness :
    main ["pagerank.py"] listing₁ = Except.error usage_message :=
  main_usage_error ["pagerank.py"] listing₁ (by decide)

/-- The L1 distance between two rank tables, measured on the corpus keys. -/
def l1dist [DecidableEq α] (c : Corpus α) (r r' : α → ℚ) : ℚ :=
  ∑ p ∈ c.keys, |r p - r' p|

lemma l1dist_nonneg [DecidableEq α] (c : Corpus α) (r r' : α → ℚ) :
    0 ≤ l1dist c r r' :=
  Finset.sum_nonneg fun _ _ => abs_nonneg _

lemma abs_sub_le_l1dist [DecidableEq α] (c : Corpus α) (r r' : α → ℚ)
    {p : α} (hp : p ∈ c.keys) : |r p - r' p| ≤ l1dist c r r' := by
  show |r p - r' p| ≤ ∑ i ∈ c.keys, |r i - r' i|
  exact Finset.single_le_sum (f := fun i => |r i - r' i|)
    (fun i _ => abs_nonneg _) hp

/-- One update round contracts the L1 distance between rank tables by the
damping factor: each row of the (sub)stochastic update matrix has total
weight at most 1. -/
lemma iterStep_contract [DecidableEq α] (c : Corpus α) (d : ℚ) (hd : 0 ≤ d)
    (r r' : α → ℚ) :
    l1dist c (iterStep c d r) (iterStep c d r') ≤ d * l1dist c r r' := by
  have hpoint : ∀ p ∈ c.keys,
      |iterStep c d r p - iterStep c d r' p|
        ≤ d * ∑ i ∈ updateSources c p, |r i - r' i| / ((c.links i).card : ℚ) := by
    intro p _
    have hS : ∑ i ∈ updateSources c p, (r i - r' i) / ((c.links i).card : ℚ)
        = (∑ i ∈ updateSources c p, r i / ((c.links i).card : ℚ))
          - ∑ i ∈ updateSources c p, r' i / ((c.links i).card : ℚ) := by
      rw [← Finset.sum_sub_distrib]
      exact Finset.sum_congr rfl fun i _ => sub_div _ _ _
    have h1 : iterStep c d r p - iterStep c d r' p
        = d * ∑ i ∈ updateSources c p, (r i - r' i) / ((c.links i).card : ℚ) := by
      simp only [iterStep]
      rw [hS]
      ring
    rw [h1, abs_mul, abs_of_nonneg hd]
    refine mul_le_mul_of_nonneg_left ?_ hd
    calc |∑ i ∈ updateSources c p, (r i - r' i) / ((c.links i).card : ℚ)|
        ≤ ∑ i ∈ updateSources c p, |(r i - r' i) / ((c.links i).card : ℚ)| :=
          Finset.abs_sum_le_sum_abs _ _
      _ = ∑ i ∈ updateSources c p, |r i - r' i| / ((c.links i).card : ℚ) := by
          refine Finset.sum_congr rfl fun i _ => ?_
          rw [abs_div, abs_of_nonneg (by positivity : (0:ℚ) ≤ ((c.links i).card : ℚ))]
  have h2 : l1dist c (iterStep c d r) (iterStep c d r')
      ≤ d * ∑ p ∈ c.keys, ∑ i ∈ updateSources c p,
          |r i - r' i| / ((c.links i).card : ℚ) := by
    rw [l1dist, Finset.mul_sum]
    exact Finset.sum_le_sum hpoint
  have hswap : ∑ p ∈ c.keys, ∑ i ∈ updateSources c p,
      |r i - r' i| / ((c.links i).card : ℚ)
      = ∑ i ∈ c.keys, ((c.keys ∩ c.links i).card : ℚ)
          * (|r i - r' i| / ((c.links i).card : ℚ)) := by
    calc ∑ p ∈ c.keys, ∑ i ∈ updateSources c p,
          |r i - r' i| / ((c.links i).card : ℚ)
        = ∑ p ∈ c.keys, ∑ i ∈ c.keys,
            (if p ∈ c.links i then |r i - r' i| / ((c.links i).card : ℚ) else 0) := by
          refine Finset.sum_congr rfl fun p _ => ?_
          rw [updateSources, Finset.sum_filter]
      _ = ∑ i ∈ c.keys, ∑ p ∈ c.keys,
            (if p ∈ c.links i then |r i - r' i| / ((c.links i).card : ℚ) else 0) :=
          Finset.sum_comm
      _ = ∑ i ∈ c.keys, ((c.keys ∩ c.links i).card : ℚ)
            * (|r i - r' i| / ((c.links i).card : ℚ)) := by
          refine Finset.sum_congr rfl fun i _ => ?_
          rw [Finset.sum_ite_mem, Finset.sum_const, nsmul_eq_mul]
  have h3 : ∑ i ∈ c.keys, ((c.keys ∩ c.links i).card : ℚ)
      * (|r i - r' i| / ((c.links i).card : ℚ)) ≤ l1dist c r r' := by
    rw [l1dist]
    refine Finset.sum_le_sum fun i _ => ?_
    by_cases hdeg : (c.links i).card = 0
    · rw [Finset.card_eq_zero] at hdeg
      simp [hdeg]
    · have hle : ((c.keys ∩ c.links i).card : ℚ) ≤ ((c.links i).card : ℚ) := by
        exact_mod_cast Finset.card_le_card Finset.inter_subset_right
      have hdegQ : ((c.links i).card : ℚ) ≠ 0 := Nat.cast_ne_zero.mpr hdeg
      calc ((c.keys ∩ c.links i).card : ℚ)
            * (|r i - r' i| / ((c.links i).card : ℚ))
          ≤ ((c.links i).card : ℚ) * (|r i - r' i| / ((c.links i).card : ℚ)) :=
            mul_le_mul_of_nonneg_right hle (by positivity)
        _ = |r i - r' i| := by
            field_simp
  calc l1dist c (iterStep c d r) (iterStep c d r')
      ≤ d * ∑ p ∈ c.keys, ∑ i ∈ updateSources c p,
          |r i - r' i| / ((c.links i).card : ℚ) := h2
    _ = d * ∑ i ∈ c.keys, ((c.keys ∩ c.links i).card : ℚ)
          * (|r i - r' i| / ((c.links i).card : ℚ)) := by rw [hswap]
    _ ≤ d * l1dist c r r' := mul_le_mul_of_nonneg_left h3 hd

/-- Iterating the contraction: consecutive rounds are geometrically close. -/
lemma l1dist_iterate [DecidableEq α] (c : Corpus α) (d : ℚ) (hd : 0 ≤ d)
    (r : α → ℚ) (k : ℕ) :
    l1dist c ((iterStep c d)^[k] r) ((iterStep c d)^[k + 1] r)
      ≤ d ^ k * l1dist c r (iterStep c d r) := by
  induction k with
  | zero => simp
  | succ n ih =>
    rw [Function.iterate_succ_apply' (iterStep c d) (n + 1) r]
    have hcon := iterStep_contract c d hd ((iterStep c d)^[n] r)
      ((iterStep c d)^[n + 1] r)
    rw [← Function.iterate_succ_apply' (iterStep c d) n r] at hcon
    refine le_trans hcon ?_
    calc d * l1dist c ((iterStep c d)^[n] r) ((iterStep c d)^[n + 1] r)
        ≤ d * (d ^ n * l1dist c r (iterStep c d r)) :=
          mul_le_mul_of_nonneg_left ih hd
      _ = d ^ (n + 1) * l1dist c r (iterStep c d r) := by ring

lemma iterLoop_zero [DecidableEq α] (c : Corpus α) (d : ℚ) (r : α → ℚ) :
    iterLoop c d 0 r = none := rfl

lemma iterLoop_succ [DecidableEq α] (c : Corpus α) (d : ℚ) (fuel : ℕ)
    (old : α → ℚ) :
    iterLoop c d (fuel + 1) old =
      if ∀ page ∈ c.keys, |old page - iterStep c d old page| < 1 / 1000
      then some (iterStep c d old)
      else iterLoop c d fuel (iterStep c d old) := rfl

/-- If some round within the fuel bound meets the convergence test, the loop
returns a table. -/
lemma iterLoop_isSome [DecidableEq α] (c : Corpus α) (d : ℚ) :
    ∀ (fuel : ℕ) (r : α → ℚ),
      (∃ j < fuel, ∀ page ∈ c.keys,
        |(iterStep c d)^[j] r page - (iterStep c d)^[j + 1] r page| < 1 / 1000) →
      (iterLoop c d fuel r).isSome := by
  intro fuel
  induction fuel with
  | zero =>
    rintro r ⟨j, hj, -⟩
    exact absurd hj (Nat.not_lt_zero j)
  | succ m ih =>
    rintro r ⟨j, hj, hcond⟩
    by_cases hc : ∀ page ∈ c.keys, |r page - iterStep c d r page| < 1 / 1000
    · rw [iterLoop_succ, if_pos hc]
      rfl
    · rw [iterLoop_succ, if_neg hc]
      match j, hj with
      | 0, _ => exact absurd (by simpa using hcond) hc
      | j' + 1, hj =>
        apply ih
        refine ⟨j', by omega, ?_⟩
        intro page hp
        have h := hcond page hp
        rwa [Function.iterate_succ_apply, Function.iterate_succ_apply] at h

/-- C7: for every non-empty corpus whose link sets stay inside the key set
and every damping factor below 1 (damping factors lie in [0,1]), the loop of
`iterate_pagerank` terminates: some fuel bound suffices.  The update is an
L1 contraction with factor `d`, so consecutive tables get closer
geometrically and the 0.001 test eventually passes. -/
theorem iterate_pagerank_terminates [DecidableEq α] (c : Corpus α) (d : ℚ)
    (hne : c.keys.Nonempty) (hsub : ∀ k ∈ c.keys, c.links k ⊆ c.keys)
    (hd0 : 0 ≤ d) (hd1 : d < 1) :
    ∃ fuel, (iterate_pagerank c d fuel).isSome := by
  set r₀ : α → ℚ := fun _ => 1 / (c.keys.card : ℚ) with hr₀
  set D := l1dist c r₀ (iterStep c d r₀) with hD
  have hDnn : 0 ≤ D := l1dist_nonneg c _ _
  have hε : (0 : ℚ) < (1 / 1000) / (D + 1) := by positivity
  obtain ⟨k, hk⟩ := exists_pow_lt_of_lt_one hε hd1
  refine ⟨k + 1, ?_⟩
  show (iterLoop c d (k + 1) r₀).isSome
  apply iterLoop_isSome
  refine ⟨k, Nat.lt_succ_self k, ?_⟩
  intro page hp
  have h3 : d ^ k * D < 1 / 1000 := by
    have hdk : 0 ≤ d ^ k := pow_nonneg hd0 k
    calc d ^ k * D ≤ d ^ k * (D + 1) := by nlinarith
      _ < ((1 / 1000) / (D + 1)) * (D + 1) :=
          mul_lt_mul_of_pos_right hk (by linarith)
      _ = 1 / 1000 := by
          field_simp
          ring
  calc |(iterStep c d)^[k] r₀ page - (iterStep c d)^[k + 1] r₀ page|
      ≤ l1dist c ((iterStep c d)^[k] r₀) ((iterStep c d)^[k + 1] r₀) :=
        abs_sub_le_l1dist c _ _ hp
    _ ≤ d ^ k * D := l1dist_iterate c d hd0 r₀ k
    _ < 1 / 1000 := h3

/-- Witness for C7: on the sink corpus with damping 0.85, some fuel bound
makes the loop converge. -/
theorem iterate_pagerank_terminates_witness :
    ∃ fuel, (iterate_pagerank cSink (17/20) fuel).isSome :=
  iterate_pagerank_terminates cSink (17/20) ⟨0, by decide⟩ (by decide)
    (by norm_num) (by norm_num)

end PageRank
